import Mathlib

/-!
Shallow embedding of the kv3 crate (src/lib.rs, src/kv3_serde.rs): a nom-based
parser for Valve's KeyValues3 text format, plus the serde mapping layer.

Modelling conventions:
* A parser input cursor is a `List Char`; `P α` is a nom parser returning the
  remaining input and a result, or an error.
* nom's `Err::Error` (recoverable, lets `alt` try the next branch) is
  `PError.err`; nom's `Err::Failure` (fatal) is `PError.fail`.  The `complete`
  parsers used by the crate never produce `Incomplete`.
* Machine integers are `Int`/`Nat` with explicit range checks where the Rust
  code checks ranges (`i64::from_str`, `u8::from_str_radix`).
* An `f64` value is abstracted by its defining lexeme: Rust's
  `<f64 as FromStr>::from_str` succeeds exactly when the lexeme matches its
  grammar (an out-of-range magnitude parses successfully to ±infinity, it is
  not an error), so only the success predicate `f64FromStrOk` is modelled and
  `KV3Value.Double` carries the lexeme.
* The mutually recursive value grammar takes an explicit fuel argument
  (`parse_valueF` etc.); every claim about it is stated for all fuels, and the
  unfuelled wrappers pick a fuel larger than the recursion depth of the
  concrete inputs they are applied to.
-/

namespace KV3

/-- Error kinds of a nom parser result: `err` is nom's recoverable
`Err::Error`, `fail` is nom's fatal `Err::Failure`. -/
inductive PError : Type
  | err
  | fail
deriving DecidableEq

/-- A nom parser over a `&str` cursor: it returns the remaining input together
with the parsed value, or an error. -/
abbrev P (α : Type) : Type := List Char → Except PError (List Char × α)

/-- Chars of a string literal, used to write tags the way the source does. -/
def str (s : String) : List Char := s.toList

/-- Sequencing of parsers, as nom's tuple/`delimited`/`preceded` chains do:
run `p`, feed its result to `f` on the remaining input; errors propagate. -/
def bindP {α β : Type} (p : P α) (f : α → P β) : P β := fun inp =>
  match p inp with
  | .ok (i1, a) => f a i1
  | .error e => .error e

/-- A parser that consumes nothing and returns `a` (the tail of a nom `map`). -/
def pureP {α : Type} (a : α) : P α := fun inp => .ok (inp, a)

/-- nom's `map` combinator. -/
def pmap {α β : Type} (p : P α) (f : α → β) : P β := fun inp =>
  match p inp with
  | .ok (i1, a) => .ok (i1, f a)
  | .error e => .error e

/-- Strip `t` from the front of `inp`: `some rest` iff `t` is a prefix. -/
def stripPfx : List Char → List Char → Option (List Char)
  | [], rest => some rest
  | _ :: _, [] => none
  | a :: as, b :: bs => if a = b then stripPfx as bs else none

/-- nom's `tag`: match the literal `t` at the cursor, `Err::Error` otherwise. -/
def tag (t : List Char) : P (List Char) := fun inp =>
  match stripPfx t inp with
  | some rest => .ok (rest, t)
  | none => .error .err

/-- Helper for `take_until`: split `l` at the first occurrence of `t`,
returning the consumed part and the rest (which starts with `t`). -/
def takeUntilGo (t : List Char) : List Char → Option (List Char × List Char)
  | [] => none
  | c :: cs =>
    match stripPfx t (c :: cs) with
    | some _ => some ([], c :: cs)
    | none =>
      match takeUntilGo t cs with
      | some (u, r) => some (c :: u, r)
      | none => none

/-- nom's `take_until`: consume up to (not including) the first occurrence of
`t`; `Err::Error` if `t` does not occur.  (`t` is nonempty at every call
site of the crate.) -/
def takeUntil (t : List Char) : P (List Char) := fun inp =>
  match takeUntilGo t inp with
  | some (u, r) => .ok (r, u)
  | none => .error .err

/-- nom's `take_while`: longest (possibly empty) run satisfying `p`. -/
def takeWhileP (p : Char → Bool) : P (List Char) := fun inp =>
  .ok (inp.dropWhile p, inp.takeWhile p)

/-- nom's `take_while1`-style positional parsers (`multispace1`, `digit1`):
longest run satisfying `p`, `Err::Error` if it is empty. -/
def takeWhile1 (p : Char → Bool) : P (List Char) := fun inp =>
  match inp.takeWhile p with
  | [] => .error .err
  | u => .ok (inp.dropWhile p, u)

/-- nom's `alt` over two parsers: on `Err::Error` try the second; `Err::Failure`
propagates. -/
def alt2 {α : Type} (p q : P α) : P α := fun inp =>
  match p inp with
  | .error .err => q inp
  | r => r

/-- nom's `alt` over a list of parsers: first non-`Err::Error` outcome wins. -/
def altFirst {α : Type} : List (P α) → P α
  | [] => fun _ => .error .err
  | p :: ps => alt2 p (altFirst ps)

/-- nom's `opt`: `Err::Error` becomes `none` without consuming;
`Err::Failure` propagates. -/
def optP {α : Type} (p : P α) : P (Option α) := fun inp =>
  match p inp with
  | .ok (i1, a) => .ok (i1, some a)
  | .error .err => .ok (inp, none)
  | .error .fail => .error .fail

/-- nom's `many0` with fuel: collect results until the inner parser returns
`Err::Error`; a success that does not shrink the input is rejected like nom's
`ErrorKind::Many0` infinite-loop guard (parsers never grow the input, so
`<` coincides with nom's `!=` check).  Fuel larger than the input length is
never exhausted because every kept iteration shrinks the input. -/
def many0F {α : Type} : Nat → P α → P (List α)
  | 0, _ => fun _ => .error .fail
  | fuel + 1, p => fun inp =>
    match p inp with
    | .error .err => .ok (inp, [])
    | .error .fail => .error .fail
    | .ok (i1, a) =>
      if i1.length < inp.length then
        match many0F fuel p i1 with
        | .ok (i2, as) => .ok (i2, a :: as)
        | .error e => .error e
      else .error .err

/-- Whitespace recognized by nom's `multispace1`: space, tab, CR, LF. -/
def isNomSpace (c : Char) : Bool :=
  c = ' ' || c = '\t' || c = '\r' || c = '\n'

/-- nom's `multispace1`, result discarded as in the source's `map(_, |_| ())`. -/
def multispace1 : P (List Char) := takeWhile1 isNomSpace

/-- Rust `char::is_whitespace` (the Unicode White_Space property), used by
`str::trim_start` and `str::split_whitespace`. -/
def isRustWhitespace (c : Char) : Bool :=
  (9 ≤ c.toNat && c.toNat ≤ 13) || c.toNat = 32 || c.toNat = 0x85 ||
    c.toNat = 0xA0 || c.toNat = 0x1680 ||
    (0x2000 ≤ c.toNat && c.toNat ≤ 0x200A) ||
    c.toNat = 0x2028 || c.toNat = 0x2029 || c.toNat = 0x202F ||
    c.toNat = 0x205F || c.toNat = 0x3000

/-- Source `parse_comment`: `alt((single_line, multi_line, xml_style))` where
`single_line = preceded(tag("//"), take_until("\n"))` (the newline itself is
left unconsumed), `multi_line = delimited(tag("/*"), take_until("*/"),
tag("*/"))`, `xml_style = delimited(tag("<!--"), take_until("-->"),
tag("-->"))`. -/
def parse_comment : P Unit :=
  altFirst
    [ pmap (bindP (tag (str "//")) fun _ => takeUntil (str "\n")) (fun _ => ()),
      pmap (bindP (tag (str "/*")) fun _ =>
              bindP (takeUntil (str "*/")) fun c =>
                bindP (tag (str "*/")) fun _ => pureP c) (fun _ => ()),
      pmap (bindP (tag (str "<!--")) fun _ =>
              bindP (takeUntil (str "-->")) fun c =>
                bindP (tag (str "-->")) fun _ => pureP c) (fun _ => ()) ]

/-- One step of the skipper's loop: `alt((map(multispace1, |_| ()),
parse_comment))`. -/
def skipInner : P Unit := alt2 (pmap multispace1 fun _ => ()) parse_comment

/-- Source `skip_comments_and_whitespace` with explicit fuel:
`map(many0(alt((map(multispace1, |_| ()), parse_comment))), |_| ())`. -/
def skip_cwF (fuel : Nat) : P Unit := pmap (many0F fuel skipInner) (fun _ => ())

/-- Source `skip_comments_and_whitespace`; each successful loop iteration
consumes at least one char, so `length + 1` fuel is never exhausted. -/
def skip_comments_and_whitespace : P Unit := fun inp =>
  skip_cwF (inp.length + 1) inp

/-- Source `ws` combinator: skip, run the inner parser, skip again, with
errors propagated as the source's `?` operator does. -/
def ws {α : Type} (p : P α) : P α :=
  bindP skip_comments_and_whitespace fun _ =>
    bindP p fun a =>
      bindP skip_comments_and_whitespace fun _ => pureP a

/-- ASCII decimal digit, as nom's `digit1` and Rust integer parsing use. -/
def isAsciiDigit (c : Char) : Bool := '0' ≤ c && c ≤ '9'

/-- A sign character of a numeric literal. -/
def isSign (c : Char) : Bool := c = '+' || c = '-'

/-- Optional leading sign: the consumed sign chars and the rest. -/
def spanSign : List Char → List Char × List Char
  | [] => ([], [])
  | c :: cs => if isSign c then ([c], cs) else ([], c :: cs)

/-- Mantissa of nom's `recognize_float`:
`alt((tuple((digit1, opt(pair(char('.'), opt(digit1))))), tuple((char('.'),
digit1))))`, returning the consumed chars and the rest. -/
def mantissaPart (i : List Char) : Option (List Char × List Char) :=
  match i.takeWhile isAsciiDigit with
  | [] =>
    match i with
    | [] => none
    | c :: r =>
      if c = '.' then
        match r.takeWhile isAsciiDigit with
        | [] => none
        | ds => some ('.' :: ds, r.dropWhile isAsciiDigit)
      else none
  | ds =>
    match i.dropWhile isAsciiDigit with
    | [] => some (ds, [])
    | c :: r =>
      if c = '.' then
        some (ds ++ '.' :: r.takeWhile isAsciiDigit, r.dropWhile isAsciiDigit)
      else some (ds, c :: r)

/-- Exponent of nom's `recognize_float`: `opt(tuple((alt((char('e'),
char('E'))), opt(sign), cut(digit1))))`.  The `cut` turns a missing exponent
digit into a fatal `Err::Failure`. -/
def expPart (i : List Char) : Except PError (List Char × List Char) :=
  match i with
  | [] => .ok ([], [])
  | c :: rest =>
    if c = 'e' || c = 'E' then
      match (spanSign rest).2.takeWhile isAsciiDigit with
      | [] => .error .fail
      | ds => .ok ((spanSign rest).2.dropWhile isAsciiDigit, c :: ((spanSign rest).1 ++ ds))
    else .ok (c :: rest, [])

/-- nom's `recognize_float` (number::complete): optional sign, then either
digits with an optional fraction or `.digits`, then an optional exponent;
returns the recognized lexeme. -/
def recognize_float : P (List Char) := fun inp =>
  match mantissaPart (spanSign inp).2 with
  | none => .error .err
  | some (mant, i2) =>
    match expPart i2 with
    | .error e => .error e
    | .ok (i3, ex) => .ok (i3, (spanSign inp).1 ++ (mant ++ ex))

/-- Numeric value of a decimal digit string. -/
def digitsToNat (ds : List Char) : Nat :=
  ds.foldl (fun a c => a * 10 + (c.toNat - '0'.toNat)) 0

/-- Rust `<i64 as FromStr>::from_str`: optional sign, one or more ASCII
digits, and the value must fit the signed 64-bit range; `none` is Rust's
`ParseIntError` (including overflow). -/
def i64FromStr (s : List Char) : Option Int :=
  let (neg, ds) : Bool × List Char :=
    match s with
    | '+' :: r => (false, r)
    | '-' :: r => (true, r)
    | _ => (false, s)
  if ds = [] then none
  else if ds.all isAsciiDigit then
    let v : Int := if neg then -(digitsToNat ds : Int) else (digitsToNat ds : Int)
    if -(2 ^ 63) ≤ v ∧ v ≤ 2 ^ 63 - 1 then some v else none
  else none

/-- Exponent acceptance of Rust `<f64 as FromStr>::from_str`: empty, or
`e`/`E`, an optional sign, and at least one digit, ending the string. -/
def expOkOrEmpty : List Char → Bool
  | [] => true
  | c :: r =>
    if c = 'e' || c = 'E' then
      !((spanSign r).2.takeWhile isAsciiDigit).isEmpty &&
        ((spanSign r).2.dropWhile isAsciiDigit).isEmpty
    else false

/-- Success predicate of Rust `<f64 as FromStr>::from_str` (minus the
`inf`/`infinity`/`nan` keywords, which no `recognize_float` lexeme contains):
optional sign, digits with an optional `.` and fraction digits — at least one
mantissa digit in total — and an optional well-formed exponent.  Magnitude is
irrelevant: an overflowing literal parses successfully to ±infinity, Rust
float parsing has no range error. -/
def f64Body (d1 : List Char) : List Char → Bool
  | [] => !d1.isEmpty
  | c :: r =>
    if c = '.' then
      if d1.isEmpty && (r.takeWhile isAsciiDigit).isEmpty then false
      else expOkOrEmpty (r.dropWhile isAsciiDigit)
    else if d1.isEmpty then false else expOkOrEmpty (c :: r)

/-- The full `f64` syntax check: strip the optional sign, span the integral
digits, then check the rest with `f64Body`. -/
def f64FromStrOk (s : List Char) : Bool :=
  f64Body ((spanSign s).2.takeWhile isAsciiDigit) ((spanSign s).2.dropWhile isAsciiDigit)

/-- Truth of `p` failing on the head of a list (vacuous for the empty list);
used to state where digit and sign spans stop. -/
def headNot (p : Char → Bool) : List Char → Prop
  | [] => True
  | c :: _ => p c = false

/-- The shapes a `recognize_float` mantissa can take: digits-dot-digits,
plain digits, or dot-digits. -/
def MantShape (mant : List Char) : Prop :=
  (∃ ds fs, ds ≠ [] ∧ ds.all isAsciiDigit = true ∧ fs.all isAsciiDigit = true ∧
    mant = ds ++ '.' :: fs) ∨
  (mant ≠ [] ∧ mant.all isAsciiDigit = true) ∨
  (∃ fs, fs ≠ [] ∧ fs.all isAsciiDigit = true ∧ mant = '.' :: fs)

/-- Rust `str::trim_start`, as called at the top of `parse_number_or_float`. -/
def trimStart (inp : List Char) : List Char := inp.dropWhile isRustWhitespace

/-- The source's classification test on a recognized numeric lexeme:
`num_str.contains('.') || num_str.contains('e') || num_str.contains('E')`. -/
def hasFloatMark (s : List Char) : Bool :=
  s.contains '.' || s.contains 'e' || s.contains 'E'

/-- The KV3 value tree (`KV3Value` in src/lib.rs).  `Double` carries the
source lexeme standing for the `f64` it denotes; `HexArray` bytes are `Nat`s
below 256; `Object` carries its field mapping as built by the
`HashMap` `collect` (later duplicate keys overwrite earlier ones). -/
inductive KV3Value : Type
  | Bool (b : Bool)
  | Int (i : Int)
  | Double (lexeme : List Char)
  | String (s : List Char)
  | Array (xs : List KV3Value)
  | HexArray (bs : List Nat)
  | Object (fields : List (List Char × KV3Value))
  | Null

/-- Source `parse_number_or_float`: trim leading whitespace, recognize a float
lexeme, then classify — a lexeme containing `.`/`e`/`E` is parsed as `f64`
(`Double`), otherwise as `i64` (`Int`); a value-parse error becomes nom's
fatal `Err::Failure` (the crate's number-format error). -/
def parse_number_or_float : P KV3Value := fun inp0 =>
  match recognize_float (trimStart inp0) with
  | .error e => .error e
  | .ok (rem, numStr) =>
    if hasFloatMark numStr then
      if f64FromStrOk numStr then .ok (rem, .Double numStr)
      else .error .fail
    else
      match i64FromStr numStr with
      | some v => .ok (rem, .Int v)
      | none => .error .fail

/-- Key characters: Rust `c.is_alphanumeric() || c == '_'` (restricted here to
ASCII alphanumerics, the only key characters the format and tests use). -/
def isKeyChar (c : Char) : Bool := c.isAlphanum || c = '_'

/-- Source `parse_key`: longest (possibly empty) run of key characters. -/
def parse_key : P (List Char) := takeWhileP isKeyChar

/-- Source `parse_string`: a triple-quoted multiline string tried first, then
a single-quoted string; content taken verbatim, no escapes. -/
def parse_string : P (List Char) :=
  alt2
    (bindP (tag (str "\"\"\"")) fun _ =>
      bindP (takeUntil (str "\"\"\"")) fun c =>
        bindP (tag (str "\"\"\"")) fun _ => pureP c)
    (bindP (tag (str "\"")) fun _ =>
      bindP (takeUntil (str "\"")) fun c =>
        bindP (tag (str "\"")) fun _ => pureP c)

/-- Hexadecimal digit as accepted by `u8::from_str_radix(_, 16)`. -/
def isHexDigitC (c : Char) : Bool :=
  isAsciiDigit c || ('a' ≤ c && c ≤ 'f') || ('A' ≤ c && c ≤ 'F')

/-- Value of one hexadecimal digit. -/
def hexVal (c : Char) : Nat :=
  if isAsciiDigit c then c.toNat - '0'.toNat
  else if 'a' ≤ c then c.toNat - 'a'.toNat + 10
  else c.toNat - 'A'.toNat + 10

/-- Value of a hexadecimal digit string. -/
def hexToNat (ds : List Char) : Nat := ds.foldl (fun a c => a * 16 + hexVal c) 0

/-- Digits of a `u8::from_str_radix` input after stripping an optional
leading `+` (a `-` is not stripped: on the unsigned type it fails). -/
def u8Digits (s : List Char) : List Char :=
  match s with
  | c :: r => if c = '+' then r else c :: r
  | [] => []

/-- Rust `u8::from_str_radix(s, 16)`: an optional leading `+`, then one or
more hex digits, and the value must fit in a byte; anything else (including
overflow and a leading `-` on the unsigned type) is `none`.  Note it accepts
one-digit and multi-digit tokens, not only two-digit ones. -/
def u8_from_str_radix16 (s : List Char) : Option Nat :=
  if (u8Digits s).isEmpty then none
  else if (u8Digits s).all isHexDigitC then
    if hexToNat (u8Digits s) < 256 then some (hexToNat (u8Digits s)) else none
  else none

/-- Rust `str::split_whitespace` accumulator: split on runs of Unicode
whitespace, yielding the nonempty tokens in order. -/
def splitWsAux : List Char → List Char → List (List Char)
  | [], acc => if acc.isEmpty then [] else [acc.reverse]
  | c :: cs, acc =>
    if isRustWhitespace c then
      if acc.isEmpty then splitWsAux cs [] else acc.reverse :: splitWsAux cs []
    else splitWsAux cs (c :: acc)

/-- Rust `str::split_whitespace`. -/
def splitWs (s : List Char) : List (List Char) := splitWsAux s []

/-- Decoding of a hex-array body, as in `parse_hex_array`:
`content.split_whitespace().filter_map(|hex| u8::from_str_radix(hex, 16).ok())`
— tokens that fail to decode are silently dropped. -/
def hexBody (content : List Char) : List Nat :=
  (splitWs content).filterMap u8_from_str_radix16

/-- Source `parse_hex_array`: `delimited(tag("#["), map(take_until("]"),
decode), tag("]"))`. -/
def parse_hex_array : P KV3Value :=
  bindP (tag (str "#[")) fun _ =>
    bindP (takeUntil (str "]")) fun content =>
      bindP (tag (str "]")) fun _ =>
        pureP (.HexArray (hexBody content))

/-- Keyword parser `map(tag("false"), |_| KV3Value::Bool(false))`. -/
def pFalse : P KV3Value := pmap (tag (str "false")) (fun _ => .Bool false)

/-- Keyword parser `map(tag("true"), |_| KV3Value::Bool(true))`. -/
def pTrue : P KV3Value := pmap (tag (str "true")) (fun _ => .Bool true)

/-- Keyword parser `map(tag("null"), |_| KV3Value::Null)`. -/
def pNull : P KV3Value := pmap (tag (str "null")) (fun _ => .Null)

/-- String alternative `map(parse_string, KV3Value::String)`. -/
def pString : P KV3Value := pmap parse_string (fun s => .String s)

/-- One insertion into the `HashMap` built by `collect`: a later binding of an
existing key overwrites it, a new key is appended. -/
def insertField (m : List (List Char × KV3Value)) (k : List Char) (v : KV3Value) :
    List (List Char × KV3Value) :=
  match m with
  | [] => [(k, v)]
  | (k', v') :: rest => if k' = k then (k, v) :: rest else (k', v') :: insertField rest k v

/-- `kvs.into_iter().collect::<HashMap<_, _>>()`, modelled as a deterministic
association list with overwrite-on-duplicate semantics. -/
def collectFields (kvs : List (List Char × KV3Value)) : List (List Char × KV3Value) :=
  kvs.foldl (fun m kv => insertField m kv.1 kv.2) []

mutual

/-- Source `parse_value`: `alt((parse_array, parse_hex_array, parse_object,
tag("false"), tag("true"), tag("null"), parse_number_or_float,
parse_string))` — the canonical alternative order.  Fuel 0 is an artificial
out-of-fuel result; every claim is stated at successor fuel. -/
def parse_valueF : Nat → P KV3Value
  | 0 => fun _ => .error .fail
  | f + 1 =>
    altFirst
      [ parse_arrayF f, parse_hex_array, parse_objectF f,
        pFalse, pTrue, pNull, parse_number_or_float, pString ]

/-- Source `parse_array`: `delimited(ws(tag("[")),
map(pair(separated_list0(ws(tag(",")), ws(parse_value)), opt(ws(tag(",")))),
|(elements, _)| elements), ws(tag("]")))`. -/
def parse_arrayF : Nat → P KV3Value
  | 0 => fun _ => .error .fail
  | f + 1 =>
    bindP (ws (tag (str "["))) fun _ =>
      bindP (parse_elemsF f) fun elems =>
        bindP (optP (ws (tag (str ",")))) fun _ =>
          bindP (ws (tag (str "]"))) fun _ =>
            pureP (.Array elems)

/-- nom's `separated_list0(ws(tag(",")), ws(parse_value))`: first element (or
the empty list on a recoverable error), then the loop collecting
separator-plus-element rounds.  A round that errors recoverably stops the
loop, restoring the cursor to before its separator; a round that does not
shrink the input is rejected like nom's `ErrorKind::SeparatedList` guard —
both exactly the behavior of `many0F` on the compound round parser.  The
loop fuel `length + 1` is never exhausted because every kept round consumes
at least the separator. -/
def parse_elemsF : Nat → P (List KV3Value)
  | 0 => fun _ => .error .fail
  | f + 1 => fun inp =>
    match ws (parse_valueF f) inp with
    | .error .err => .ok (inp, [])
    | .error .fail => .error .fail
    | .ok (i1, v) =>
      match many0F (i1.length + 1)
          (bindP (ws (tag (str ","))) fun _ => ws (parse_valueF f)) i1 with
      | .ok (i2, vs) => .ok (i2, v :: vs)
      | .error e => .error e

/-- Source `parse_object`: `delimited(ws(tag("{")), many0(ws(parse_key_value)),
ws(tag("}")))`, collected into the field map. -/
def parse_objectF : Nat → P KV3Value
  | 0 => fun _ => .error .fail
  | f + 1 =>
    bindP (ws (tag (str "\x7b"))) fun _ =>
      bindP (parse_pairsF f) fun fields =>
        bindP (ws (tag (str "\x7d"))) fun _ =>
          pureP (.Object (collectFields fields))

/-- nom's `many0(ws(parse_key_value))` via `many0F`; the fuel `length + 1` is
never exhausted because every kept iteration consumes at least the `=`. -/
def parse_pairsF : Nat → P (List (List Char × KV3Value))
  | 0 => fun _ => .error .fail
  | f + 1 => fun inp => many0F (inp.length + 1) (ws (parse_key_valueF f)) inp

/-- Source `parse_key_value`: `separated_pair(ws(parse_key), ws(tag("=")),
ws(parse_value))`. -/
def parse_key_valueF : Nat → P (List Char × KV3Value)
  | 0 => fun _ => .error .fail
  | f + 1 =>
    bindP (ws parse_key) fun k =>
      bindP (ws (tag (str "="))) fun _ =>
        bindP (ws (parse_valueF f)) fun v =>
          pureP (k, v)

end

/-- The eight `parse_value` alternatives in the source's order. -/
def valueAltsF (f : Nat) : List (P KV3Value) :=
  [ parse_arrayF f, parse_hex_array, parse_objectF f,
    pFalse, pTrue, pNull, parse_number_or_float, pString ]

/-- Source `parse_kv3` (the root entry point): `ws(tag("{"))`, then
`many0(ws(parse_key_value))`, then `ws(tag("}"))`, returning the remaining
input and the collected root map (not wrapped in any `KV3Value`). -/
def parse_kv3F (f : Nat) : P (List (List Char × KV3Value)) :=
  bindP (ws (tag (str "\x7b"))) fun _ =>
    bindP (parse_pairsF f) fun kvs =>
      bindP (ws (tag (str "\x7d"))) fun _ =>
        pureP (collectFields kvs)

/-- Unfuelled `parse_value` wrapper; the fuel exceeds the recursion depth of
every input this development applies it to (each fuelled step either consumes
input or crosses one grammar production). -/
def parse_value (inp : List Char) : Except PError (List Char × KV3Value) :=
  parse_valueF (4 * inp.length + 8) inp

/-- Unfuelled `parse_kv3` wrapper, fuel chosen as in `parse_value`. -/
def parse_kv3 (inp : List Char) : Except PError (List Char × List (List Char × KV3Value)) :=
  parse_kv3F (4 * inp.length + 8) inp

/-- A call the serde `Deserializer` implementation makes on the visitor. -/
inductive VisitorCall : Type
  | vBool (b : Bool)
  | vI64 (i : Int)
  | vF64 (lexeme : List Char)
  | vString (s : List Char)
  | vSeq (elems : List KV3Value)
  | vMap (entries : List (List Char × KV3Value))
  | vUnit

/-- Source `KV3Value::deserialize_any` (src/kv3_serde.rs): which visitor
method is invoked with which payload.  A `HexArray` is surfaced as a sequence
of `KV3Value::Int(v as i64)` elements, one per byte, in order. -/
def deserialize_any : KV3Value → VisitorCall
  | .Bool b => .vBool b
  | .Int i => .vI64 i
  | .Double d => .vF64 d
  | .String s => .vString s
  | .Array xs => .vSeq xs
  | .HexArray bs => .vSeq (bs.map fun b => .Int (Int.ofNat b))
  | .Object fs => .vMap fs
  | .Null => .vUnit

/-- Modelled from the spec (for comparison in claim C2, not from the source):
the §3 invariant read literally — keep exactly the whitespace-separated
tokens that are two hexadecimal digits, decoded. -/
def twoDigitHexBytes (content : List Char) : List Nat :=
  (splitWs content).filterMap fun t =>
    match t with
    | [a, b] =>
      if isHexDigitC a && isHexDigitC b then some (hexVal a * 16 + hexVal b)
      else none
    | _ => none

/-- A parser whose remaining input is always a suffix of its input. -/
def Consumes {α : Type} (p : P α) : Prop :=
  ∀ inp rem a, p inp = .ok (rem, a) → rem <:+ inp

/-- A parser that never returns nom's fatal `Err::Failure`. -/
def NoFail {α : Type} (p : P α) : Prop :=
  ∀ inp, p inp ≠ .error .fail

/-- A parser that consumes at least one char whenever it succeeds. -/
def Shrinks {α : Type} (p : P α) : Prop :=
  ∀ inp rem a, p inp = .ok (rem, a) → rem.length < inp.length

theorem stripPfx_eq : ∀ t inp r : List Char, stripPfx t inp = some r → inp = t ++ r := by
  intro t
  induction t with
  | nil => intro inp r h; simp only [stripPfx, Option.some.injEq] at h; simp [h]
  | cons a as ih =>
    intro inp r h
    cases inp with
    | nil => simp [stripPfx] at h
    | cons b bs =>
      unfold stripPfx at h
      split at h
      · next hab => subst hab; have := ih bs r h; simp [this]
      · exact absurd h (by simp)

theorem tag_eq {t inp rem a} (h : tag t inp = .ok (rem, a)) : inp = t ++ rem ∧ a = t := by
  unfold tag at h
  split at h
  · next r hr =>
    obtain ⟨h1, h2⟩ := Prod.mk.injEq .. ▸ Except.ok.inj h
    have := stripPfx_eq t inp r hr
    exact ⟨h1 ▸ this, h2.symm⟩
  · exact absurd h (by simp)

theorem consumes_tag (t : List Char) : Consumes (tag t) := by
  intro inp rem a h
  obtain ⟨h1, -⟩ := tag_eq h
  exact h1 ▸ List.suffix_append t rem

theorem noFail_tag (t : List Char) : NoFail (tag t) := by
  intro inp h
  unfold tag at h
  split at h <;> simp at h

theorem takeUntilGo_eq :
    ∀ l t u r : List Char, takeUntilGo t l = some (u, r) → l = u ++ r := by
  intro l
  induction l with
  | nil => intro t u r h; simp [takeUntilGo] at h
  | cons c cs ih =>
    intro t u r h
    unfold takeUntilGo at h
    split at h
    · obtain ⟨h1, h2⟩ := Prod.mk.injEq .. ▸ Option.some.inj h
      simp [← h1, ← h2]
    · split at h
      · next u' r' hgo =>
        obtain ⟨h1, h2⟩ := Prod.mk.injEq .. ▸ Option.some.inj h
        have := ih t u' r' hgo
        simp [← h1, ← h2, this]
      · exact absurd h (by simp)

theorem consumes_takeUntil (t : List Char) : Consumes (takeUntil t) := by
  intro inp rem a h
  unfold takeUntil at h
  split at h
  · next u r hgo =>
    obtain ⟨h1, h2⟩ := Prod.mk.injEq .. ▸ Except.ok.inj h
    have := takeUntilGo_eq inp t u r hgo
    exact ⟨a, by rw [this, h1, h2]⟩
  · exact absurd h (by simp)

theorem noFail_takeUntil (t : List Char) : NoFail (takeUntil t) := by
  intro inp h
  unfold takeUntil at h
  split at h <;> simp at h

theorem consumes_takeWhileP (p : Char → Bool) : Consumes (takeWhileP p) := by
  intro inp rem a h
  obtain ⟨h1, -⟩ := Prod.mk.injEq .. ▸ Except.ok.inj h
  exact h1 ▸ List.dropWhile_suffix p

theorem consumes_takeWhile1 (p : Char → Bool) : Consumes (takeWhile1 p) := by
  intro inp rem a h
  unfold takeWhile1 at h
  split at h
  · exact absurd h (by simp)
  · obtain ⟨h1, -⟩ := Prod.mk.injEq .. ▸ Except.ok.inj h
    exact h1 ▸ List.dropWhile_suffix p

theorem noFail_takeWhile1 (p : Char → Bool) : NoFail (takeWhile1 p) := by
  intro inp h
  unfold takeWhile1 at h
  split at h <;> simp at h

theorem consumes_pureP {α : Type} (a : α) : Consumes (pureP a) := by
  intro inp rem b h
  obtain ⟨h1, -⟩ := Prod.mk.injEq .. ▸ Except.ok.inj h
  exact h1 ▸ List.suffix_refl inp

theorem noFail_pureP {α : Type} (a : α) : NoFail (pureP a) := by
  intro inp h; simp [pureP] at h

theorem consumes_pmap {α β : Type} {p : P α} (hp : Consumes p) (f : α → β) :
    Consumes (pmap p f) := by
  intro inp rem b h
  unfold pmap at h
  split at h
  · next i1 a hp1 =>
    obtain ⟨h1, -⟩ := Prod.mk.injEq .. ▸ Except.ok.inj h
    exact h1 ▸ hp inp i1 a hp1
  · exact absurd h (by simp)

theorem noFail_pmap {α β : Type} {p : P α} (hp : NoFail p) (f : α → β) :
    NoFail (pmap p f) := by
  intro inp h
  unfold pmap at h
  split at h
  · simp at h
  · next e he => cases h; exact hp inp he

theorem consumes_bindP {α β : Type} {p : P α} {f : α → P β}
    (hp : Consumes p) (hf : ∀ a, Consumes (f a)) : Consumes (bindP p f) := by
  intro inp rem b h
  unfold bindP at h
  split at h
  · next i1 a hp1 => exact (hf a i1 rem b h).trans (hp inp i1 a hp1)
  · exact absurd h (by simp)

theorem noFail_bindP {α β : Type} {p : P α} {f : α → P β}
    (hp : NoFail p) (hf : ∀ a, NoFail (f a)) : NoFail (bindP p f) := by
  intro inp h
  unfold bindP at h
  split at h
  · next i1 a _ => exact hf a i1 h
  · next e he => cases h; exact hp inp he

theorem consumes_alt2 {α : Type} {p q : P α} (hp : Consumes p) (hq : Consumes q) :
    Consumes (alt2 p q) := by
  intro inp rem a h
  unfold alt2 at h
  cases hp1 : p inp with
  | error e =>
    rw [hp1] at h
    cases e with
    | err => exact hq inp rem a h
    | fail => exact absurd h (by simp)
  | ok pr =>
    rw [hp1] at h
    have h2 : Except.ok (ε := PError) pr = .ok (rem, a) := h
    rw [h2] at hp1
    exact hp inp rem a hp1

theorem noFail_alt2 {α : Type} {p q : P α} (hp : NoFail p) (hq : NoFail q) :
    NoFail (alt2 p q) := by
  intro inp h
  unfold alt2 at h
  cases hp1 : p inp with
  | error e =>
    rw [hp1] at h
    cases e with
    | err => exact hq inp h
    | fail => exact absurd hp1 (hp inp)
  | ok pr =>
    rw [hp1] at h
    have h2 : Except.ok (ε := PError) pr = .error .fail := h
    simp at h2

theorem consumes_altFirst {α : Type} :
    ∀ ps : List (P α), (∀ p ∈ ps, Consumes p) → Consumes (altFirst ps) := by
  intro ps
  induction ps with
  | nil => intro _ inp rem a h; simp [altFirst] at h
  | cons p ps ih =>
    intro hall
    exact consumes_alt2 (hall p (by simp)) (ih fun q hq => hall q (by simp [hq]))

theorem consumes_optP {α : Type} {p : P α} (hp : Consumes p) : Consumes (optP p) := by
  intro inp rem a h
  unfold optP at h
  split at h
  · next i1 b hp1 =>
    obtain ⟨h1, -⟩ := Prod.mk.injEq .. ▸ Except.ok.inj h
    exact h1 ▸ hp inp i1 b hp1
  · obtain ⟨h1, -⟩ := Prod.mk.injEq .. ▸ Except.ok.inj h
    exact h1 ▸ List.suffix_refl inp
  · exact absurd h (by simp)

theorem consumes_many0F {α : Type} {p : P α} (hp : Consumes p) :
    ∀ fuel, Consumes (many0F fuel p) := by
  intro fuel
  induction fuel with
  | zero => intro inp rem a h; simp [many0F] at h
  | succ f ih =>
    intro inp rem a h
    unfold many0F at h
    split at h
    · obtain ⟨h1, -⟩ := Prod.mk.injEq .. ▸ Except.ok.inj h
      exact h1 ▸ List.suffix_refl inp
    · exact absurd h (by simp)
    · next i1 b hp1 =>
      split at h
      · split at h
        · next i2 as h2 =>
          obtain ⟨h1, -⟩ := Prod.mk.injEq .. ▸ Except.ok.inj h
          exact h1 ▸ (ih i1 i2 as h2).trans (hp inp i1 b hp1)
        · exact absurd h (by simp)
      · exact absurd h (by simp)

theorem shrinks_pmap {α β : Type} {p : P α} (hp : Shrinks p) (f : α → β) :
    Shrinks (pmap p f) := by
  intro inp rem b h
  unfold pmap at h
  split at h
  · next i1 a hp1 =>
    obtain ⟨h1, -⟩ := Prod.mk.injEq .. ▸ Except.ok.inj h
    exact h1 ▸ hp inp i1 a hp1
  · exact absurd h (by simp)

theorem shrinks_alt2 {α : Type} {p q : P α} (hp : Shrinks p) (hq : Shrinks q) :
    Shrinks (alt2 p q) := by
  intro inp rem a h
  unfold alt2 at h
  cases hp1 : p inp with
  | error e =>
    rw [hp1] at h
    cases e with
    | err => exact hq inp rem a h
    | fail => exact absurd h (by simp)
  | ok pr =>
    rw [hp1] at h
    have h2 : Except.ok (ε := PError) pr = .ok (rem, a) := h
    rw [h2] at hp1
    exact hp inp rem a hp1

theorem length_lt_of_suffix_ne {l r : List Char} (h : r <:+ l) (hne : r.length ≠ l.length) :
    r.length < l.length :=
  lt_of_le_of_ne (List.IsSuffix.length_le h) hne

theorem shrinks_bind_tag {α : Type} {t : List Char} (ht : t ≠ []) {k : List Char → P α}
    (hk : ∀ a, Consumes (k a)) : Shrinks (bindP (tag t) k) := by
  intro inp rem a h
  unfold bindP at h
  cases h1 : tag t inp with
  | error e => rw [h1] at h; exact absurd h (by simp)
  | ok pr =>
    rw [h1] at h
    obtain ⟨i1, b⟩ := pr
    obtain ⟨heq, -⟩ := tag_eq h1
    have hsuf : rem <:+ i1 := hk b i1 rem a h
    have h2 : i1.length + t.length = inp.length := by
      rw [heq, List.length_append]; omega
    have h3 : 0 < t.length := List.length_pos.mpr ht
    have := List.IsSuffix.length_le hsuf
    omega

theorem shrinks_multispaceUnit : Shrinks (pmap multispace1 fun _ => ()) := by
  apply shrinks_pmap
  intro inp rem a h
  unfold multispace1 takeWhile1 at h
  cases htw : inp.takeWhile isNomSpace with
  | nil => rw [htw] at h; exact absurd h (by simp)
  | cons c cs =>
    rw [htw] at h
    obtain ⟨h1, -⟩ := Prod.mk.injEq .. ▸ Except.ok.inj h
    have hlen : inp.length = (inp.takeWhile isNomSpace).length + (inp.dropWhile isNomSpace).length := by
      conv_lhs => rw [← List.takeWhile_append_dropWhile (p := isNomSpace) (l := inp)]
      rw [List.length_append]
    rw [htw] at hlen
    simp only [List.length_cons] at hlen
    rw [← h1]
    omega

theorem shrinks_altFirst {α : Type} :
    ∀ ps : List (P α), (∀ p ∈ ps, Shrinks p) → Shrinks (altFirst ps) := by
  intro ps
  induction ps with
  | nil => intro _ inp rem a h; simp [altFirst] at h
  | cons p ps ih =>
    intro hall
    exact shrinks_alt2 (hall p (by simp)) (ih fun q hq => hall q (by simp [hq]))

theorem noFail_altFirst {α : Type} :
    ∀ ps : List (P α), (∀ p ∈ ps, NoFail p) → NoFail (altFirst ps) := by
  intro ps
  induction ps with
  | nil => intro _ inp h; simp [altFirst] at h
  | cons p ps ih =>
    intro hall
    exact noFail_alt2 (hall p (by simp)) (ih fun q hq => hall q (by simp [hq]))

theorem shrinks_parse_comment : Shrinks parse_comment := by
  unfold parse_comment
  apply shrinks_altFirst
  intro p hp
  simp only [List.mem_cons, List.not_mem_nil, or_false] at hp
  rcases hp with rfl | rfl | rfl
  · exact shrinks_pmap (shrinks_bind_tag (by simp [str]) fun _ => consumes_takeUntil _) _
  · exact shrinks_pmap (shrinks_bind_tag (by simp [str]) fun _ =>
      consumes_bindP (consumes_takeUntil _) fun c =>
        consumes_bindP (consumes_tag _) fun _ => consumes_pureP c) _
  · exact shrinks_pmap (shrinks_bind_tag (by simp [str]) fun _ =>
      consumes_bindP (consumes_takeUntil _) fun c =>
        consumes_bindP (consumes_tag _) fun _ => consumes_pureP c) _

theorem noFail_parse_comment : NoFail parse_comment := by
  unfold parse_comment
  apply noFail_altFirst
  intro p hp
  simp only [List.mem_cons, List.not_mem_nil, or_false] at hp
  rcases hp with rfl | rfl | rfl
  · exact noFail_pmap (noFail_bindP (noFail_tag _) fun _ => noFail_takeUntil _) _
  · exact noFail_pmap (noFail_bindP (noFail_tag _) fun _ =>
      noFail_bindP (noFail_takeUntil _) fun c =>
        noFail_bindP (noFail_tag _) fun _ => noFail_pureP c) _
  · exact noFail_pmap (noFail_bindP (noFail_tag _) fun _ =>
      noFail_bindP (noFail_takeUntil _) fun c =>
        noFail_bindP (noFail_tag _) fun _ => noFail_pureP c) _

theorem consumes_parse_comment : Consumes parse_comment := by
  unfold parse_comment
  apply consumes_altFirst
  intro p hp
  simp only [List.mem_cons, List.not_mem_nil, or_false] at hp
  rcases hp with rfl | rfl | rfl
  · exact consumes_pmap (consumes_bindP (consumes_tag _) fun _ => consumes_takeUntil _) _
  · exact consumes_pmap (consumes_bindP (consumes_tag _) fun _ =>
      consumes_bindP (consumes_takeUntil _) fun c =>
        consumes_bindP (consumes_tag _) fun _ => consumes_pureP c) _
  · exact consumes_pmap (consumes_bindP (consumes_tag _) fun _ =>
      consumes_bindP (consumes_takeUntil _) fun c =>
        consumes_bindP (consumes_tag _) fun _ => consumes_pureP c) _

theorem shrinks_skipInner : Shrinks skipInner :=
  shrinks_alt2 shrinks_multispaceUnit shrinks_parse_comment

theorem noFail_skipInner : NoFail skipInner :=
  noFail_alt2 (noFail_pmap (noFail_takeWhile1 _) _) noFail_parse_comment

theorem consumes_skipInner : Consumes skipInner :=
  consumes_alt2 (consumes_pmap (consumes_takeWhile1 _) _) consumes_parse_comment

theorem many0F_total {α : Type} {p : P α} (hs : Shrinks p) (hnf : NoFail p)
    (hc : Consumes p) :
    ∀ fuel inp, inp.length < fuel →
      ∃ rem as, many0F fuel p inp = .ok (rem, as) ∧ rem <:+ inp ∧ p rem = .error .err := by
  intro fuel
  induction fuel with
  | zero => intro inp h; omega
  | succ f ih =>
    intro inp hlen
    cases h1 : p inp with
    | error e =>
      cases e with
      | err => exact ⟨inp, [], by simp [many0F, h1], List.suffix_refl inp, h1⟩
      | fail => exact absurd h1 (hnf inp)
    | ok pr =>
      obtain ⟨i1, a⟩ := pr
      have hlt : i1.length < inp.length := hs inp i1 a h1
      obtain ⟨rem, as, hrec, hsuf, herr⟩ := ih i1 (by omega)
      refine ⟨rem, a :: as, ?_, hsuf.trans (hc inp i1 a h1), herr⟩
      simp [many0F, h1, hlt, hrec]

theorem skip_total : ∀ inp, ∃ rem,
    skip_comments_and_whitespace inp = .ok (rem, ()) ∧ rem <:+ inp ∧
      skipInner rem = .error .err := by
  intro inp
  obtain ⟨rem, as, h1, h2, h3⟩ :=
    many0F_total shrinks_skipInner noFail_skipInner consumes_skipInner
      (inp.length + 1) inp (Nat.lt_succ_self _)
  exact ⟨rem, by simp [skip_comments_and_whitespace, skip_cwF, pmap, h1], h2, h3⟩

theorem skip_of_innerErr {inp : List Char} (h : skipInner inp = .error .err) :
    skip_comments_and_whitespace inp = .ok (inp, ()) := by
  simp [skip_comments_and_whitespace, skip_cwF, many0F, pmap, h]

theorem consumes_skip : Consumes skip_comments_and_whitespace := by
  intro inp rem a h
  obtain ⟨rem', h1, h2, -⟩ := skip_total inp
  rw [h1] at h
  obtain ⟨hr, -⟩ := Prod.mk.injEq .. ▸ Except.ok.inj h
  exact hr ▸ h2

theorem consumes_ws {α : Type} {p : P α} (hp : Consumes p) : Consumes (ws p) := by
  unfold ws
  exact consumes_bindP consumes_skip fun _ =>
    consumes_bindP hp fun a =>
      consumes_bindP consumes_skip fun _ => consumes_pureP a

theorem consumes_spanSign : ∀ i : List Char, (spanSign i).2 <:+ i := by
  intro i
  cases i with
  | nil => exact List.suffix_refl _
  | cons c cs =>
    by_cases hc : isSign c = true
    · simp only [spanSign, if_pos hc]
      exact ⟨[c], rfl⟩
    · simp only [spanSign, if_neg hc]
      exact List.suffix_refl _

theorem consumes_mantissaPart {i mant i2 : List Char} (h : mantissaPart i = some (mant, i2)) :
    i2 <:+ i := by
  unfold mantissaPart at h
  cases htw : i.takeWhile isAsciiDigit with
  | nil =>
    rw [htw] at h
    cases i with
    | nil => exact absurd h (by simp)
    | cons c r =>
      have h' : (if c = '.' then
          match r.takeWhile isAsciiDigit with
          | [] => none
          | ds => some ('.' :: ds, r.dropWhile isAsciiDigit)
        else none) = some (mant, i2) := h
      by_cases hc : c = '.'
      · rw [if_pos hc] at h'
        cases hfs : r.takeWhile isAsciiDigit with
        | nil => rw [hfs] at h'; exact absurd h' (by simp)
        | cons d ds =>
          rw [hfs] at h'
          obtain ⟨-, h2⟩ := Prod.mk.injEq .. ▸ Option.some.inj h'
          have : i2 <:+ r := h2 ▸ List.dropWhile_suffix _
          exact this.trans (List.suffix_cons c r)
      · rw [if_neg hc] at h'
        exact absurd h' (by simp)
  | cons d ds =>
    rw [htw] at h
    cases hdw : i.dropWhile isAsciiDigit with
    | nil =>
      rw [hdw] at h
      have h' : some ((d :: ds : List Char), ([] : List Char)) = some (mant, i2) := h
      obtain ⟨-, h2⟩ := Prod.mk.injEq .. ▸ Option.some.inj h'
      exact h2 ▸ List.nil_suffix
    | cons c r =>
      rw [hdw] at h
      have h' : (if c = '.' then
          some ((d :: ds) ++ '.' :: r.takeWhile isAsciiDigit, r.dropWhile isAsciiDigit)
        else some (d :: ds, c :: r)) = some (mant, i2) := h
      by_cases hc : c = '.'
      · rw [if_pos hc] at h'
        obtain ⟨-, h2⟩ := Prod.mk.injEq .. ▸ Option.some.inj h'
        have h3 : i2 <:+ c :: r := (h2 ▸ List.dropWhile_suffix _).trans (List.suffix_cons c r)
        exact h3.trans (hdw ▸ List.dropWhile_suffix (l := i) _)
      · rw [if_neg hc] at h'
        obtain ⟨-, h2⟩ := Prod.mk.injEq .. ▸ Option.some.inj h'
        exact h2 ▸ (hdw ▸ List.dropWhile_suffix (l := i) _)

theorem consumes_expPart {i i3 ex : List Char} (h : expPart i = .ok (i3, ex)) :
    i3 <:+ i := by
  unfold expPart at h
  cases i with
  | nil =>
    obtain ⟨h1, -⟩ := Prod.mk.injEq .. ▸ Except.ok.inj h
    exact h1 ▸ List.suffix_refl _
  | cons c rest =>
    have h' : (if (c = 'e' || c = 'E') = true then
        match (spanSign rest).2.takeWhile isAsciiDigit with
        | [] => Except.error (α := List Char × List Char) PError.fail
        | ds => .ok ((spanSign rest).2.dropWhile isAsciiDigit, c :: ((spanSign rest).1 ++ ds))
      else .ok (c :: rest, [])) = .ok (i3, ex) := h
    by_cases hce : (c = 'e' || c = 'E') = true
    · rw [if_pos hce] at h'
      cases hds : (spanSign rest).2.takeWhile isAsciiDigit with
      | nil => rw [hds] at h'; exact absurd h' (by simp)
      | cons d ds =>
        rw [hds] at h'
        obtain ⟨h1, -⟩ := Prod.mk.injEq .. ▸ Except.ok.inj h'
        have h2 : i3 <:+ (spanSign rest).2 := h1 ▸ List.dropWhile_suffix _
        exact (h2.trans (consumes_spanSign rest)).trans (List.suffix_cons c rest)
    · rw [if_neg hce] at h'
      obtain ⟨h1, -⟩ := Prod.mk.injEq .. ▸ Except.ok.inj h'
      exact h1 ▸ List.suffix_refl _

theorem consumes_recognize_float : Consumes recognize_float := by
  intro inp rem a h
  unfold recognize_float at h
  cases hmant : mantissaPart (spanSign inp).2 with
  | none => rw [hmant] at h; exact absurd h (by simp)
  | some pr =>
    obtain ⟨mant, i2⟩ := pr
    rw [hmant] at h
    have h2 : (match expPart i2 with
      | .error e => Except.error e
      | .ok (i3, ex) => Except.ok (i3, (spanSign inp).1 ++ (mant ++ ex))) =
        Except.ok (rem, a) := h
    cases hexp : expPart i2 with
    | error e =>
      rw [hexp] at h2
      exact absurd h2 (by simp)
    | ok pr2 =>
      obtain ⟨i3, ex⟩ := pr2
      rw [hexp] at h2
      obtain ⟨h1, -⟩ := Prod.mk.injEq .. ▸ Except.ok.inj h2
      calc rem <:+ i2 := h1 ▸ consumes_expPart hexp
        _ <:+ (spanSign inp).2 := consumes_mantissaPart hmant
        _ <:+ inp := consumes_spanSign inp

theorem consumes_parse_number_or_float : Consumes parse_number_or_float := by
  intro inp rem a h
  unfold parse_number_or_float at h
  cases hrec : recognize_float (trimStart inp) with
  | error e => rw [hrec] at h; exact absurd h (by simp)
  | ok pr =>
    obtain ⟨rem', numStr⟩ := pr
    rw [hrec] at h
    have hsuf : rem' <:+ inp :=
      (consumes_recognize_float (trimStart inp) rem' numStr hrec).trans
        (List.dropWhile_suffix _)
    have h' : (if hasFloatMark numStr = true then
        if f64FromStrOk numStr = true then Except.ok (rem', KV3Value.Double numStr)
        else Except.error PError.fail
      else
        match i64FromStr numStr with
        | some v => Except.ok (rem', KV3Value.Int v)
        | none => Except.error PError.fail) = .ok (rem, a) := h
    by_cases hfm : hasFloatMark numStr = true
    · rw [if_pos hfm] at h'
      by_cases hok : f64FromStrOk numStr = true
      · rw [if_pos hok] at h'
        obtain ⟨h1, -⟩ := Prod.mk.injEq .. ▸ Except.ok.inj h'
        exact h1 ▸ hsuf
      · rw [if_neg hok] at h'
        exact absurd h' (by simp)
    · rw [if_neg hfm] at h'
      cases hi : i64FromStr numStr with
      | none => rw [hi] at h'; exact absurd h' (by simp)
      | some v =>
        rw [hi] at h'
        obtain ⟨h1, -⟩ := Prod.mk.injEq .. ▸ Except.ok.inj h'
        exact h1 ▸ hsuf

theorem consumes_parse_string : Consumes parse_string := by
  unfold parse_string
  apply consumes_alt2 <;>
    exact consumes_bindP (consumes_tag _) fun _ =>
      consumes_bindP (consumes_takeUntil _) fun c =>
        consumes_bindP (consumes_tag _) fun _ => consumes_pureP c

theorem consumes_parse_hex_array : Consumes parse_hex_array := by
  unfold parse_hex_array
  exact consumes_bindP (consumes_tag _) fun _ =>
    consumes_bindP (consumes_takeUntil _) fun content =>
      consumes_bindP (consumes_tag _) fun _ => consumes_pureP _

theorem consumes_family : ∀ f,
    Consumes (parse_valueF f) ∧ Consumes (parse_arrayF f) ∧ Consumes (parse_elemsF f) ∧
    Consumes (parse_objectF f) ∧ Consumes (parse_pairsF f) ∧
    Consumes (parse_key_valueF f) := by
  intro f
  induction f with
  | zero =>
    refine ⟨?_, ?_, ?_, ?_, ?_, ?_⟩ <;>
      · intro inp rem a h
        simp [parse_valueF, parse_arrayF, parse_elemsF, parse_objectF,
          parse_pairsF, parse_key_valueF] at h
  | succ f ih =>
    obtain ⟨hv, ha, he, ho, hp, hk⟩ := ih
    have harr : Consumes (parse_arrayF (f + 1)) := by
      unfold parse_arrayF
      exact consumes_bindP (consumes_ws (consumes_tag _)) fun _ =>
        consumes_bindP he fun elems =>
          consumes_bindP (consumes_optP (consumes_ws (consumes_tag _))) fun _ =>
            consumes_bindP (consumes_ws (consumes_tag _)) fun _ => consumes_pureP _
    have hkv : Consumes (parse_key_valueF (f + 1)) := by
      unfold parse_key_valueF
      exact consumes_bindP (consumes_ws (consumes_takeWhileP _)) fun k =>
        consumes_bindP (consumes_ws (consumes_tag _)) fun _ =>
          consumes_bindP (consumes_ws hv) fun v => consumes_pureP _
    have hpairs : Consumes (parse_pairsF (f + 1)) := by
      intro inp rem a h
      unfold parse_pairsF at h
      exact consumes_many0F (consumes_ws hk) _ inp rem a h
    have hobj : Consumes (parse_objectF (f + 1)) := by
      unfold parse_objectF
      exact consumes_bindP (consumes_ws (consumes_tag _)) fun _ =>
        consumes_bindP hp fun fields =>
          consumes_bindP (consumes_ws (consumes_tag _)) fun _ => consumes_pureP _
    have hval : Consumes (parse_valueF (f + 1)) := by
      unfold parse_valueF
      apply consumes_altFirst
      intro q hq
      simp only [List.mem_cons, List.not_mem_nil, or_false] at hq
      rcases hq with rfl | rfl | rfl | rfl | rfl | rfl | rfl | rfl
      · exact ha
      · exact consumes_parse_hex_array
      · exact ho
      · exact consumes_pmap (consumes_tag _) _
      · exact consumes_pmap (consumes_tag _) _
      · exact consumes_pmap (consumes_tag _) _
      · exact consumes_parse_number_or_float
      · exact consumes_pmap consumes_parse_string _
    have helems : Consumes (parse_elemsF (f + 1)) := by
      intro inp rem a h
      unfold parse_elemsF at h
      split at h
      · obtain ⟨hr, -⟩ := Prod.mk.injEq .. ▸ Except.ok.inj h
        exact hr ▸ List.suffix_refl inp
      · exact absurd h (by simp)
      · next i1 v h1 =>
        split at h
        · next i2 vs h2 =>
          obtain ⟨hr, -⟩ := Prod.mk.injEq .. ▸ Except.ok.inj h
          have hstep : Consumes (bindP (ws (tag (str ","))) fun _ => ws (parse_valueF f)) :=
            consumes_bindP (consumes_ws (consumes_tag _)) fun _ => consumes_ws hv
          calc rem <:+ i1 := hr ▸ consumes_many0F hstep _ i1 i2 vs h2
            _ <:+ inp := consumes_ws hv inp i1 v h1
        · exact absurd h (by simp)
    exact ⟨hval, harr, helems, hobj, hpairs, hkv⟩

/-- The pair observed by `parse_pairsF` at successor fuel, for reuse. -/
theorem parse_pairsF_succ (f : Nat) (inp : List Char) :
    parse_pairsF (f + 1) inp = many0F (inp.length + 1) (ws (parse_key_valueF f)) inp := rfl

theorem altFirst_eq_get {α : Type} :
    ∀ (ps : List (P α)) (inp : List Char) (k : Nat) (hk : k < ps.length),
      (∀ j (hj : j < k), ps.get ⟨j, Nat.lt_trans hj hk⟩ inp = .error .err) →
      ps.get ⟨k, hk⟩ inp ≠ .error .err →
      altFirst ps inp = ps.get ⟨k, hk⟩ inp := by
  intro ps
  induction ps with
  | nil => intro inp k hk; simp at hk
  | cons p ps ih =>
    intro inp k hk hbefore hsucc
    cases k with
    | zero =>
      show alt2 p (altFirst ps) inp = p inp
      unfold alt2
      cases hp : p inp with
      | error e =>
        cases e with
        | err => exact absurd hp hsucc
        | fail => rfl
      | ok pr => rfl
    | succ k' =>
      have h0 : p inp = .error .err := hbefore 0 (Nat.succ_pos k')
      show alt2 p (altFirst ps) inp = ps.get ⟨k', Nat.lt_of_succ_lt_succ hk⟩ inp
      unfold alt2
      rw [h0]
      exact ih inp k' (Nat.lt_of_succ_lt_succ hk)
        (fun j hj => hbefore (j + 1) (Nat.succ_lt_succ hj)) hsucc

theorem takeUntilGo_not_mem {c : Char} :
    ∀ l : List Char, c ∉ l → takeUntilGo [c] l = none := by
  intro l
  induction l with
  | nil => intro _; rfl
  | cons d ds ih =>
    intro hmem
    have hcd : c ≠ d := fun h => hmem (h ▸ List.mem_cons_self d ds)
    have h1 : stripPfx [c] (d :: ds) = none := by
      unfold stripPfx
      rw [if_neg hcd]
    unfold takeUntilGo
    rw [h1, ih (fun h => hmem (List.mem_cons_of_mem d h))]

theorem takeUntilGo_first {c : Char} :
    ∀ pre post : List Char, c ∉ pre →
      takeUntilGo [c] (pre ++ c :: post) = some (pre, c :: post) := by
  intro pre
  induction pre with
  | nil =>
    intro post _
    have h1 : stripPfx [c] (c :: post) = some post := by
      unfold stripPfx
      rw [if_pos rfl]
      rfl
    simp only [List.nil_append, takeUntilGo, h1]
  | cons d ds ih =>
    intro post hmem
    have hcd : c ≠ d := fun h => hmem (h ▸ List.mem_cons_self d ds)
    have h1 : stripPfx [c] (d :: (ds ++ c :: post)) = none := by
      unfold stripPfx
      rw [if_neg hcd]
    have h2 := ih post (fun h => hmem (List.mem_cons_of_mem d h))
    simp only [List.cons_append, takeUntilGo, List.append_eq, h1, h2]

theorem u8_lt {t : List Char} {b : Nat} (h : u8_from_str_radix16 t = some b) : b < 256 := by
  unfold u8_from_str_radix16 at h
  split at h
  · exact absurd h (by simp)
  · split at h
    · split at h
      · next hlt => exact (Option.some.inj h) ▸ hlt
      · exact absurd h (by simp)
    · exact absurd h (by simp)

theorem hexBody_lt {content : List Char} : ∀ b ∈ hexBody content, b < 256 := by
  intro b hb
  unfold hexBody at hb
  obtain ⟨t, -, ht⟩ := List.mem_filterMap.mp hb
  exact u8_lt ht

theorem allP_takeWhile {p : Char → Bool} : ∀ l : List Char, (l.takeWhile p).all p = true := by
  intro l
  induction l with
  | nil => rfl
  | cons a l ih =>
    by_cases ha : p a = true
    · simp [List.takeWhile_cons, ha, ih]
    · simp [List.takeWhile_cons, ha]

theorem takeWhile_of_all {p : Char → Bool} : ∀ l : List Char, l.all p = true →
    l.takeWhile p = l ∧ l.dropWhile p = [] := by
  intro l
  induction l with
  | nil => simp
  | cons a l ih =>
    intro h
    simp only [List.all_cons, Bool.and_eq_true] at h
    obtain ⟨ha, hl⟩ := h
    obtain ⟨h1, h2⟩ := ih hl
    simp [List.takeWhile_cons, List.dropWhile_cons, ha, h1, h2]

theorem takeWhile_append_eq {p : Char → Bool} :
    ∀ ds r : List Char, ds.all p = true → headNot p r →
      (ds ++ r).takeWhile p = ds ∧ (ds ++ r).dropWhile p = r := by
  intro ds
  induction ds with
  | nil =>
    intro r _ hr
    cases r with
    | nil => simp
    | cons c rest =>
      have hc : p c = false := hr
      simp [List.takeWhile_cons, List.dropWhile_cons, hc]
  | cons d ds ih =>
    intro r hall hr
    simp only [List.all_cons, Bool.and_eq_true] at hall
    obtain ⟨hd, hds⟩ := hall
    obtain ⟨h1, h2⟩ := ih r hds hr
    simp [List.cons_append, List.takeWhile_cons, List.dropWhile_cons, hd, h1, h2]

theorem digit_not_sign {c : Char} (h : isAsciiDigit c = true) : isSign c = false := by
  by_cases h1 : c = '+'
  · subst h1; exact absurd h (by decide)
  · by_cases h2 : c = '-'
    · subst h2; exact absurd h (by decide)
    · simp [isSign, h1, h2]

theorem spanSign_sign {c : Char} {rest : List Char} (h : isSign c = true) :
    spanSign (c :: rest) = ([c], rest) := by simp [spanSign, h]

theorem spanSign_of_headNot : ∀ l, headNot isSign l → spanSign l = ([], l) := by
  intro l hl
  cases l with
  | nil => rfl
  | cons c r =>
    have hc : isSign c = false := hl
    simp [spanSign, hc]

theorem spanSign_fst : ∀ l : List Char,
    (spanSign l).1 = [] ∨ ∃ s, (spanSign l).1 = [s] ∧ isSign s = true := by
  intro l
  cases l with
  | nil => left; rfl
  | cons c r =>
    by_cases hc : isSign c = true
    · right; exact ⟨c, by simp [spanSign, hc], hc⟩
    · left; simp [spanSign, hc]

theorem expOkOrEmpty_cons (c : Char) (r : List Char) :
    expOkOrEmpty (c :: r) = if (c = 'e' || c = 'E') = true then
      !((spanSign r).2.takeWhile isAsciiDigit).isEmpty &&
        ((spanSign r).2.dropWhile isAsciiDigit).isEmpty
    else false := rfl

theorem f64Body_cons (d1 : List Char) (c : Char) (r : List Char) :
    f64Body d1 (c :: r) = if c = '.' then
      (if d1.isEmpty && (r.takeWhile isAsciiDigit).isEmpty then false
       else expOkOrEmpty (r.dropWhile isAsciiDigit))
    else if d1.isEmpty then false else expOkOrEmpty (c :: r) := rfl

theorem f64Body_nil (d1 : List Char) : f64Body d1 [] = !d1.isEmpty := rfl

theorem expPart_spec {i i3 ex : List Char} (h : expPart i = .ok (i3, ex)) :
    expOkOrEmpty ex = true ∧ headNot isAsciiDigit ex := by
  unfold expPart at h
  cases i with
  | nil =>
    obtain ⟨-, h2⟩ := Prod.mk.injEq .. ▸ Except.ok.inj h
    exact h2 ▸ ⟨rfl, trivial⟩
  | cons c rest =>
    have h' : (if (c = 'e' || c = 'E') = true then
        match (spanSign rest).2.takeWhile isAsciiDigit with
        | [] => Except.error (α := List Char × List Char) PError.fail
        | ds => .ok ((spanSign rest).2.dropWhile isAsciiDigit, c :: ((spanSign rest).1 ++ ds))
      else .ok (c :: rest, [])) = .ok (i3, ex) := h
    by_cases hce : (c = 'e' || c = 'E') = true
    · rw [if_pos hce] at h'
      cases hds : (spanSign rest).2.takeWhile isAsciiDigit with
      | nil => rw [hds] at h'; exact absurd h' (by simp)
      | cons d ds' =>
        rw [hds] at h'
        obtain ⟨-, h2⟩ := Prod.mk.injEq .. ▸ Except.ok.inj h'
        have hdigits : (d :: ds').all isAsciiDigit = true := hds ▸ allP_takeWhile (spanSign rest).2
        have hd : isAsciiDigit d = true := by
          simp only [List.all_cons, Bool.and_eq_true] at hdigits
          exact hdigits.1
        refine ⟨?_, ?_⟩
        · rw [← h2]
          have hspan2 : (spanSign ((spanSign rest).1 ++ d :: ds')).2 = d :: ds' := by
            rcases spanSign_fst rest with hs | ⟨s, hs, hsgn⟩
            · rw [hs, List.nil_append,
                spanSign_of_headNot (d :: ds') (show isSign d = false from digit_not_sign hd)]
            · rw [hs, List.singleton_append, spanSign_sign hsgn]
          obtain ⟨htw, hdw⟩ := takeWhile_of_all (d :: ds') hdigits
          show expOkOrEmpty (c :: ((spanSign rest).1 ++ d :: ds')) = true
          rw [expOkOrEmpty_cons, if_pos hce, hspan2, htw, hdw]
          rfl
        · rw [← h2]
          show isAsciiDigit c = false
          simp only [Bool.or_eq_true, decide_eq_true_eq] at hce
          rcases hce with rfl | rfl <;> decide
    · rw [if_neg hce] at h'
      obtain ⟨-, h2⟩ := Prod.mk.injEq .. ▸ Except.ok.inj h'
      exact h2 ▸ ⟨rfl, trivial⟩

theorem mantissaPart_spec {i mant i2 : List Char} (h : mantissaPart i = some (mant, i2)) :
    MantShape mant := by
  unfold mantissaPart at h
  cases htw : i.takeWhile isAsciiDigit with
  | nil =>
    rw [htw] at h
    cases i with
    | nil => exact absurd h (by simp)
    | cons c r =>
      have h' : (if c = '.' then
          match r.takeWhile isAsciiDigit with
          | [] => none
          | ds => some ('.' :: ds, r.dropWhile isAsciiDigit)
        else none) = some (mant, i2) := h
      by_cases hc : c = '.'
      · rw [if_pos hc] at h'
        cases hfs : r.takeWhile isAsciiDigit with
        | nil => rw [hfs] at h'; exact absurd h' (by simp)
        | cons d ds' =>
          rw [hfs] at h'
          obtain ⟨h1, -⟩ := Prod.mk.injEq .. ▸ Option.some.inj h'
          right; right
          exact ⟨d :: ds', by simp, hfs ▸ allP_takeWhile r, h1.symm⟩
      · rw [if_neg hc] at h'
        exact absurd h' (by simp)
  | cons d ds' =>
    rw [htw] at h
    have halld : (d :: ds').all isAsciiDigit = true := htw ▸ allP_takeWhile i
    cases hdw : i.dropWhile isAsciiDigit with
    | nil =>
      rw [hdw] at h
      have h' : some ((d :: ds' : List Char), ([] : List Char)) = some (mant, i2) := h
      obtain ⟨h1, -⟩ := Prod.mk.injEq .. ▸ Option.some.inj h'
      right; left
      exact ⟨h1 ▸ (by simp), h1 ▸ halld⟩
    | cons c r =>
      rw [hdw] at h
      have h' : (if c = '.' then
          some ((d :: ds') ++ '.' :: r.takeWhile isAsciiDigit, r.dropWhile isAsciiDigit)
        else some (d :: ds', c :: r)) = some (mant, i2) := h
      by_cases hc : c = '.'
      · rw [if_pos hc] at h'
        obtain ⟨h1, -⟩ := Prod.mk.injEq .. ▸ Option.some.inj h'
        left
        exact ⟨d :: ds', r.takeWhile isAsciiDigit, by simp, halld, allP_takeWhile r, h1.symm⟩
      · rw [if_neg hc] at h'
        obtain ⟨h1, -⟩ := Prod.mk.injEq .. ▸ Option.some.inj h'
        right; left
        exact ⟨h1 ▸ (by simp), h1 ▸ halld⟩

theorem f64ok_comp {sgn mant ex : List Char}
    (hs : sgn = [] ∨ ∃ c, sgn = [c] ∧ isSign c = true)
    (hm : MantShape mant)
    (hex1 : expOkOrEmpty ex = true) (hex2 : headNot isAsciiDigit ex) :
    f64FromStrOk (sgn ++ (mant ++ ex)) = true := by
  have hmantHead : headNot isSign (mant ++ ex) := by
    rcases hm with ⟨ds, fs, hds, hall1, -, rfl⟩ | ⟨hne, hall⟩ | ⟨fs, hfs, -, rfl⟩
    · cases ds with
      | nil => exact absurd rfl hds
      | cons d ds' =>
        show isSign d = false
        simp only [List.all_cons, Bool.and_eq_true] at hall1
        exact digit_not_sign hall1.1
    · cases mant with
      | nil => exact absurd rfl hne
      | cons d rest =>
        show isSign d = false
        simp only [List.all_cons, Bool.and_eq_true] at hall
        exact digit_not_sign hall.1
    · show isSign '.' = false
      decide
  have hspan : (spanSign (sgn ++ (mant ++ ex))).2 = mant ++ ex := by
    rcases hs with rfl | ⟨c, rfl, hc⟩
    · rw [List.nil_append, spanSign_of_headNot _ hmantHead]
    · rw [List.singleton_append, spanSign_sign hc]
  have hexNotDot : ∀ r2 : List Char, expOkOrEmpty ('.' :: r2) = false := fun r2 => rfl
  unfold f64FromStrOk
  rw [hspan]
  rcases hm with ⟨ds, fs, hds, hall1, hall2, rfl⟩ | ⟨hne, hall⟩ | ⟨fs, hfs, hall, rfl⟩
  · -- digits '.' digits, then exponent
    have hassoc : (ds ++ '.' :: fs) ++ ex = ds ++ ('.' :: (fs ++ ex)) := by simp
    rw [hassoc]
    obtain ⟨htw1, hdw1⟩ :=
      takeWhile_append_eq ds ('.' :: (fs ++ ex)) hall1 (show isAsciiDigit '.' = false by decide)
    rw [htw1, hdw1]
    obtain ⟨htw2, hdw2⟩ := takeWhile_append_eq fs ex hall2 hex2
    rw [f64Body_cons, if_pos rfl, htw2, hdw2]
    have hde : ds.isEmpty = false := by
      cases ds with
      | nil => exact absurd rfl hds
      | cons a b => rfl
    rw [hde]
    simp [hex1]
  · -- plain digits, then exponent
    obtain ⟨htw, hdw⟩ := takeWhile_append_eq mant ex hall hex2
    rw [htw, hdw]
    have hme : mant.isEmpty = false := by
      cases mant with
      | nil => exact absurd rfl hne
      | cons a b => rfl
    cases ex with
    | nil => simp [f64Body_nil, hme]
    | cons c r2 =>
      have hcd : c ≠ '.' := by
        intro hcontra
        rw [hcontra, hexNotDot r2] at hex1
        cases hex1
      rw [f64Body_cons, if_neg hcd, hme]
      simp [hex1]
  · -- '.' digits, then exponent
    have hca : ('.' :: fs) ++ ex = '.' :: (fs ++ ex) := rfl
    rw [hca]
    have hdot : isAsciiDigit '.' = false := by decide
    rw [List.takeWhile_cons_of_neg (by simp [hdot]), List.dropWhile_cons_of_neg (by simp [hdot])]
    obtain ⟨htw2, hdw2⟩ := takeWhile_append_eq fs ex hall hex2
    rw [f64Body_cons, if_pos rfl, htw2, hdw2]
    have hfe : fs.isEmpty = false := by
      cases fs with
      | nil => exact absurd rfl hfs
      | cons a b => rfl
    rw [hfe]
    simp [hex1]

theorem recognize_float_f64ok {inp rem s : List Char}
    (h : recognize_float inp = .ok (rem, s)) : f64FromStrOk s = true := by
  unfold recognize_float at h
  cases hmant : mantissaPart (spanSign inp).2 with
  | none => rw [hmant] at h; exact absurd h (by simp)
  | some pr =>
    obtain ⟨mant, i2⟩ := pr
    rw [hmant] at h
    have h2 : (match expPart i2 with
      | .error e => Except.error e
      | .ok (i3, ex) => Except.ok (i3, (spanSign inp).1 ++ (mant ++ ex))) =
        Except.ok (rem, s) := h
    cases hexp : expPart i2 with
    | error e => rw [hexp] at h2; exact absurd h2 (by simp)
    | ok pr2 =>
      obtain ⟨i3, ex⟩ := pr2
      rw [hexp] at h2
      obtain ⟨-, hse⟩ := Prod.mk.injEq .. ▸ Except.ok.inj h2
      obtain ⟨he1, he2⟩ := expPart_spec hexp
      exact hse ▸ f64ok_comp (spanSign_fst inp) (mantissaPart_spec hmant) he1 he2

theorem bindP_ok {α β : Type} {p : P α} {f : α → P β} {inp rem : List Char} {b : β}
    (h : bindP p f inp = .ok (rem, b)) :
    ∃ i1 a, p inp = .ok (i1, a) ∧ f a i1 = .ok (rem, b) := by
  unfold bindP at h
  cases hp : p inp with
  | error e => rw [hp] at h; exact absurd h (by simp)
  | ok pr =>
    obtain ⟨i1, a⟩ := pr
    rw [hp] at h
    exact ⟨i1, a, rfl, h⟩

/-- C1: the value grammar attempts its alternatives in exactly the canonical
order Array, Hex-array, Object, `false`, `true`, `null`, Number, String
(the list `valueAltsF`): for every input and fuel, if the alternatives before
position `k` all fail recoverably and the one at `k` does not, then
`parse_value` returns exactly that alternative's outcome — the first success
(or fatal failure) in the fixed order wins. -/
theorem kv3_c1_value_alt_order (f : Nat) (inp : List Char) (k : Nat)
    (hk : k < (valueAltsF f).length)
    (hbefore : ∀ j (hj : j < k), (valueAltsF f).get ⟨j, Nat.lt_trans hj hk⟩ inp = .error .err)
    (hsucc : (valueAltsF f).get ⟨k, hk⟩ inp ≠ .error .err) :
    parse_valueF (f + 1) inp = (valueAltsF f).get ⟨k, hk⟩ inp :=
  altFirst_eq_get (valueAltsF f) inp k hk hbefore hsucc

theorem kv3_c1_witness : parse_valueF 2 (str "null") = .ok ([], KV3Value.Null) := by
  have hk : 5 < (valueAltsF 1).length := by decide
  have hval : (valueAltsF 1).get ⟨5, hk⟩ (str "null") = .ok ([], KV3Value.Null) := rfl
  have hbefore : ∀ j (hj : j < 5),
      (valueAltsF 1).get ⟨j, Nat.lt_trans hj hk⟩ (str "null") = .error .err := by
    intro j hj
    interval_cases j <;> rfl
  have hsucc : (valueAltsF 1).get ⟨5, hk⟩ (str "null") ≠ .error .err := by
    rw [hval]
    simp
  exact (kv3_c1_value_alt_order 1 (str "null") 5 hk hbefore hsucc).trans hval

/-- C2 counterexample: the hex-array parser keeps the token `F`, which is not
a two-digit hexadecimal token — `#[F]` decodes to `[15]`, while the claimed
two-digit-only reading (`twoDigitHexBytes`) yields `[]`. -/
theorem kv3_c2_counterexample :
    parse_hex_array (str "#[F]") = .ok ([], KV3Value.HexArray [15]) ∧
    twoDigitHexBytes (str "F") = [] ∧ ((15 : Nat) :: [] : List Nat) ≠ [] :=
  ⟨rfl, rfl, by decide⟩

/-- C2 (amended): for every hex-array literal `#[` content `]`, the resulting
HexArray contains exactly the successfully-decoded values of the
whitespace-separated tokens — where decoding is `u8::from_str_radix(_, 16)`,
which accepts an optional leading `+` and any number of hex digits with value
below 256, not only two-digit tokens — in order, and every token that fails
to decode is silently dropped rather than causing an error. -/
theorem kv3_c2_hex_array (pre post : List Char) (hmem : ']' ∉ pre) :
    parse_hex_array ('#' :: '[' :: (pre ++ ']' :: post)) =
      .ok (post, KV3Value.HexArray ((splitWs pre).filterMap u8_from_str_radix16)) := by
  have htag1 : tag (str "#[") ('#' :: '[' :: (pre ++ ']' :: post)) =
      .ok (pre ++ ']' :: post, str "#[") := rfl
  have htu : takeUntil (str "]") (pre ++ ']' :: post) = .ok (']' :: post, pre) := by
    unfold takeUntil
    rw [show str "]" = [']'] from rfl, takeUntilGo_first pre post hmem]
  have htag2 : tag (str "]") (']' :: post) = .ok (post, str "]") := rfl
  simp only [parse_hex_array, bindP, htag1, htu, htag2, pureP, hexBody]

theorem kv3_c2_witness :
    parse_hex_array ('#' :: '[' :: (str "FF 00 ZZ 1FF +7F" ++ [']'])) =
      .ok ([], KV3Value.HexArray [255, 0, 127]) :=
  (kv3_c2_hex_array (str "FF 00 ZZ 1FF +7F") [] (by decide)).trans (by rfl)

/-- C3 counterexample: `1e999` overflows the 64-bit float range, yet the
number parser succeeds with a `Double` (Rust `f64` parsing saturates to
infinity) instead of the claimed hard `NumberFormatError` failure. -/
theorem kv3_c3_counterexample :
    parse_number_or_float (str "1e999") = .ok ([], KV3Value.Double (str "1e999")) ∧
    parse_number_or_float (str "1e999") ≠ .error .fail :=
  ⟨rfl, fun h => nomatch h⟩

/-- C3 (amended): for every recognized numeric lexeme, overflow of the 64-bit
integer range is a hard parse failure (nom `Err::Failure`, the crate's
number-format error), not silent saturation; the float branch, however, never
fails — every float-classified lexeme satisfies Rust's `f64` grammar, and an
overflowing float magnitude parses successfully (to ±infinity) rather than
erroring. -/
theorem kv3_c3_overflow (inp rem s : List Char)
    (hrec : recognize_float (trimStart inp) = .ok (rem, s)) :
    (hasFloatMark s = false → i64FromStr s = none →
      parse_number_or_float inp = .error .fail) ∧
    (hasFloatMark s = false → ∀ n, i64FromStr s = some n →
      parse_number_or_float inp = .ok (rem, KV3Value.Int n)) ∧
    (hasFloatMark s = true → parse_number_or_float inp = .ok (rem, KV3Value.Double s)) := by
  refine ⟨?_, ?_, ?_⟩
  · intro hfm hnone
    simp [parse_number_or_float, hrec, hfm, hnone]
  · intro hfm n hsome
    simp [parse_number_or_float, hrec, hfm, hsome]
  · intro hfm
    simp [parse_number_or_float, hrec, hfm, recognize_float_f64ok hrec]

theorem kv3_c3_witness : parse_number_or_float (str "9223372036854775808") = .error .fail :=
  (kv3_c3_overflow (str "9223372036854775808") [] (str "9223372036854775808") rfl).1 rfl rfl

/-- C4 counterexample: on `/*x` — an unterminated comment opener — the
skipper does not fail hard as claimed: it succeeds, leaving the whole input
unconsumed. -/
theorem kv3_c4_counterexample :
    skip_comments_and_whitespace (str "/*x") = .ok (str "/*x", ()) ∧
    skip_comments_and_whitespace (str "/*x") ≠ .error .fail :=
  ⟨rfl, fun h => nomatch h⟩

/-- C4 (amended): the Lexical Skipper, given any text cursor, always succeeds:
it advances past a mixture of whitespace and comments in any order and count
(including zero), returning a suffix of the input on which neither whitespace
nor any comment form can be consumed (`skipInner` fails recoverably there).
In particular an unterminated comment opener is not a failure of the skipper:
it is left unconsumed for the surrounding parser to reject. -/
theorem kv3_c4_skipper_total (inp : List Char) :
    ∃ rem, skip_comments_and_whitespace inp = .ok (rem, ()) ∧ rem <:+ inp ∧
      skipInner rem = .error .err :=
  skip_total inp

/-- C5: every numeric literal lexeme is classified exactly once at parse time:
a successful number parse comes from the recognized lexeme, which becomes
`Double` precisely when it contains `.`, `e`, or `E`, and otherwise becomes
`Int` with its `i64` value; the mapping layer then surfaces `Int` through
`visit_i64` and `Double` through `visit_f64`, never revisiting this
classification. -/
theorem kv3_c5_classification (inp rem : List Char) (v : KV3Value)
    (h : parse_number_or_float inp = .ok (rem, v)) :
    (∃ s, recognize_float (trimStart inp) = .ok (rem, s) ∧
      ((hasFloatMark s = true ∧ v = KV3Value.Double s) ∨
       (hasFloatMark s = false ∧ ∃ n, i64FromStr s = some n ∧ v = KV3Value.Int n))) ∧
    (∀ i : Int, deserialize_any (KV3Value.Int i) = .vI64 i) ∧
    (∀ l : List Char, deserialize_any (KV3Value.Double l) = .vF64 l) := by
  refine ⟨?_, fun i => rfl, fun l => rfl⟩
  unfold parse_number_or_float at h
  cases hrec : recognize_float (trimStart inp) with
  | error e => rw [hrec] at h; exact absurd h (by simp)
  | ok pr =>
    obtain ⟨rem', s⟩ := pr
    rw [hrec] at h
    have h' : (if hasFloatMark s = true then
        if f64FromStrOk s = true then Except.ok (rem', KV3Value.Double s)
        else Except.error PError.fail
      else
        match i64FromStr s with
        | some v => Except.ok (rem', KV3Value.Int v)
        | none => Except.error PError.fail) = .ok (rem, v) := h
    by_cases hfm : hasFloatMark s = true
    · rw [if_pos hfm] at h'
      by_cases hok : f64FromStrOk s = true
      · rw [if_pos hok] at h'
        obtain ⟨h1, h2⟩ := Prod.mk.injEq .. ▸ Except.ok.inj h'
        subst h1
        exact ⟨s, rfl, Or.inl ⟨hfm, h2.symm⟩⟩
      · rw [if_neg hok] at h'
        exact absurd h' (by simp)
    · rw [if_neg hfm] at h'
      cases hi : i64FromStr s with
      | none => rw [hi] at h'; exact absurd h' (by simp)
      | some n =>
        rw [hi] at h'
        obtain ⟨h1, h2⟩ := Prod.mk.injEq .. ▸ Except.ok.inj h'
        subst h1
        exact ⟨s, rfl, Or.inr ⟨Bool.eq_false_iff.mpr hfm, n, hi, h2.symm⟩⟩

theorem kv3_c5_witness :
    (∃ s, recognize_float (trimStart (str "5.0")) = .ok ([], s) ∧
      ((hasFloatMark s = true ∧ KV3Value.Double (str "5.0") = KV3Value.Double s) ∨
       (hasFloatMark s = false ∧ ∃ n, i64FromStr s = some n ∧
          KV3Value.Double (str "5.0") = KV3Value.Int n))) ∧
    (∀ i : Int, deserialize_any (KV3Value.Int i) = .vI64 i) ∧
    (∀ l : List Char, deserialize_any (KV3Value.Double l) = .vF64 l) :=
  kv3_c5_classification (str "5.0") [] (KV3Value.Double (str "5.0")) rfl

/-- C6: the root entry point consumes leading skip, requires `{`, parses zero
or more key/value pairs, requires `}`, produces the root field mapping
directly (as a key-to-value list, not wrapped as an Array element), and on
success returns the unconsumed trailing text — a suffix of the input — to the
caller without treating trailing text as an error (concretely, parsing
`\x7b a = 1 \x7d rest` succeeds leaving `rest`). -/
theorem kv3_c6_root (f : Nat) (inp rem : List Char) (kvs : List (List Char × KV3Value))
    (h : parse_kv3F f inp = .ok (rem, kvs)) :
    (∃ i1 i2 pairs t1 t2,
      ws (tag (str "\x7b")) inp = .ok (i1, t1) ∧
      parse_pairsF f i1 = .ok (i2, pairs) ∧
      ws (tag (str "\x7d")) i2 = .ok (rem, t2) ∧
      kvs = collectFields pairs ∧ rem <:+ inp) ∧
    parse_kv3 (str "\x7b a = 1 \x7d rest") =
      .ok (str "rest", [(str "a", KV3Value.Int 1)]) := by
  refine ⟨?_, rfl⟩
  obtain ⟨i1, t1, h1, hrest1⟩ := bindP_ok h
  obtain ⟨i2, pairs, h2, hrest2⟩ := bindP_ok hrest1
  obtain ⟨i3, t2, h3, hrest3⟩ := bindP_ok hrest2
  have h4 : Except.ok (ε := PError) (i3, collectFields pairs) = .ok (rem, kvs) := hrest3
  obtain ⟨h5, h6⟩ := Prod.mk.injEq .. ▸ Except.ok.inj h4
  have hsuf : rem <:+ inp := by
    calc rem <:+ i2 := h5 ▸ consumes_ws (consumes_tag _) i2 i3 t2 h3
      _ <:+ i1 := ((consumes_family f).2.2.2.2.1) i1 i2 pairs h2
      _ <:+ inp := consumes_ws (consumes_tag _) inp i1 t1 h1
  exact ⟨i1, i2, pairs, t1, t2, h1, h2, h5 ▸ h3, h6.symm, hsuf⟩

theorem kv3_c6_witness : (str "rest") <:+ (str "\x7b a = 1 \x7d rest") := by
  obtain ⟨⟨i1, i2, pairs, t1, t2, -, -, -, -, hsuf⟩, -⟩ :=
    kv3_c6_root (4 * (str "\x7b a = 1 \x7d rest").length + 8) (str "\x7b a = 1 \x7d rest")
      (str "rest") [(str "a", KV3Value.Int 1)] rfl
  exact hsuf

/-- C7: an array literal accepts an optional single trailing comma before the
closing bracket without changing its value: `[1, 2,]` parses to the same
Array as `[1, 2]`, while a double trailing comma `[1, 2,,]` is rejected. -/
theorem kv3_c7_trailing_comma :
    parse_value (str "[1, 2,]") = .ok ([], KV3Value.Array [KV3Value.Int 1, KV3Value.Int 2]) ∧
    parse_value (str "[1, 2]") = .ok ([], KV3Value.Array [KV3Value.Int 1, KV3Value.Int 2]) ∧
    parse_value (str "[1, 2,,]") = .error .err :=
  ⟨rfl, rfl, rfl⟩

/-- C8: the Lexical Skipper is idempotent: applying it to the remainder of a
successful application consumes nothing further. -/
theorem kv3_c8_skipper_idem (inp rem : List Char)
    (h : skip_comments_and_whitespace inp = .ok (rem, ())) :
    skip_comments_and_whitespace rem = .ok (rem, ()) := by
  obtain ⟨rem', h1, -, h3⟩ := skip_total inp
  rw [h1] at h
  obtain ⟨he, -⟩ := Prod.mk.injEq .. ▸ Except.ok.inj h
  exact he ▸ skip_of_innerErr h3

theorem kv3_c8_witness : skip_comments_and_whitespace (str "x") = .ok (str "x", ()) :=
  kv3_c8_skipper_idem (str "  // c\n x") (str "x") rfl

/-- C9: when the serde layer deserializes a parsed HexArray into a
sequence-shaped target, the visitor receives the array's bytes surfaced as
`Int` elements, one per byte, in order, each in the range `0..255`. -/
theorem kv3_c9_hex_to_ints (inp rem : List Char) (bs : List Nat)
    (h : parse_hex_array inp = .ok (rem, KV3Value.HexArray bs)) :
    deserialize_any (KV3Value.HexArray bs) =
      .vSeq (bs.map fun b => KV3Value.Int (Int.ofNat b)) ∧
    ∀ b ∈ bs, b < 256 := by
  refine ⟨rfl, ?_⟩
  obtain ⟨i1, t1, h1, hrest1⟩ := bindP_ok h
  obtain ⟨i2, content, h2, hrest2⟩ := bindP_ok hrest1
  obtain ⟨i3, t3, h3, hrest3⟩ := bindP_ok hrest2
  have h4 : Except.ok (ε := PError) (i3, KV3Value.HexArray (hexBody content)) =
      .ok (rem, KV3Value.HexArray bs) := hrest3
  obtain ⟨-, h5⟩ := Prod.mk.injEq .. ▸ Except.ok.inj h4
  have hbs : hexBody content = bs := KV3Value.HexArray.inj h5
  intro b hb
  exact hexBody_lt b (hbs ▸ hb)

theorem kv3_c9_witness :
    deserialize_any (KV3Value.HexArray [255, 0]) =
      .vSeq (([255, 0] : List Nat).map fun b => KV3Value.Int (Int.ofNat b)) ∧
    ∀ b ∈ ([255, 0] : List Nat), b < 256 :=
  kv3_c9_hex_to_ints (str "#[FF 00]") [] [255, 0] rfl

/-- C10: a single-line `//` comment is consumed only when a newline follows
somewhere in the remaining input: on input starting with `//` that contains
no newline, the skipper succeeds but leaves the `//` and everything after it
unconsumed. -/
theorem kv3_c10_unterminated_line_comment (rest : List Char) (hnl : '\n' ∉ rest) :
    skip_comments_and_whitespace ('/' :: '/' :: rest) = .ok ('/' :: '/' :: rest, ()) := by
  apply skip_of_innerErr
  have hms : pmap multispace1 (fun _ => ()) ('/' :: '/' :: rest) = .error .err := rfl
  have hc1tu : takeUntil (str "\n") rest = .error .err := by
    unfold takeUntil
    rw [show str "\n" = ['\n'] from rfl, takeUntilGo_not_mem rest hnl]
  have htag : tag (str "//") ('/' :: '/' :: rest) = .ok (rest, str "//") := rfl
  have h1 : (pmap (bindP (tag (str "//")) fun _ => takeUntil (str "\n"))
      (fun _ => ())) ('/' :: '/' :: rest) = .error .err := by
    simp only [pmap, bindP, htag, hc1tu]
  have h2 : (pmap (bindP (tag (str "/*")) fun _ =>
      bindP (takeUntil (str "*/")) fun c => bindP (tag (str "*/")) fun _ => pureP c)
      (fun _ => ())) ('/' :: '/' :: rest) = .error .err := rfl
  have h3 : (pmap (bindP (tag (str "<!--")) fun _ =>
      bindP (takeUntil (str "-->")) fun c => bindP (tag (str "-->")) fun _ => pureP c)
      (fun _ => ())) ('/' :: '/' :: rest) = .error .err := rfl
  show skipInner ('/' :: '/' :: rest) = .error .err
  simp only [skipInner, parse_comment, altFirst, alt2, hms, h1, h2, h3]

theorem kv3_c10_witness :
    skip_comments_and_whitespace (str "//abc") = .ok (str "//abc", ()) :=
  kv3_c10_unterminated_line_comment (str "abc") (by decide)

end KV3
